import Mathlib

/-!
Verification of the rgping telemetry pipeline.

Shallow embedding of the three source files of the repository:
`src/main.rs`, `src/pinger.rs` and `src/ui.rs`.

Modelling conventions:
* `f64` round-trip-time values are modelled as exact rationals (`ℚ`);
  no claim in scope depends on binary floating-point rounding, and every
  concrete value appearing in the claims is exactly representable.
* `u64` counters (`UiState.total`, `UiState.lost`, `Pinger.seq`) are
  modelled as `Nat` reduced modulo `2 ^ 64` at each increment, mirroring
  the wrap-around semantics of machine integers.
* `VecDeque<Option<f64>>` is modelled as a `List (Option ℚ)` whose head
  is the front (oldest) element: `pop_front` is `List.drop 1` (a no-op on
  the empty list, exactly as `VecDeque::pop_front`), `push_back` appends.
* The stdout of the `ping` subprocess is modelled as the list of its
  lines (Rust iterates `stdout.lines()`).
-/

def u64Mod : Nat := 2 ^ 64

/-- Model of `ui.rs::UiState`: the history window owned by the dashboard. -/
structure UiState where
  rtts : List (Option ℚ)
  total : Nat
  lost : Nat
  last : Option ℚ
deriving DecidableEq

/-- Model of `ui.rs::UiState::new`: empty ring, zero counters, no last RTT
(`VecDeque::with_capacity` only reserves memory). -/
def UiState.new (history : Nat) : UiState :=
  { rtts := [], total := 0, lost := 0, last := none }

/-- The ring part of `ui.rs::UiState::push` that runs before `push_back`:
`if self.rtts.len() == history { self.rtts.pop_front(); }`. -/
def evictIfFull (rtts : List (Option ℚ)) (history : Nat) : List (Option ℚ) :=
  if rtts.length = history then rtts.drop 1 else rtts

/-- Model of `ui.rs::UiState::push`: bump `total`, bump `lost` on a miss,
record `last`, evict the front if the ring is at `history`, append the
new value at the back. -/
def UiState.push (s : UiState) (rtt : Option ℚ) (history : Nat) : UiState :=
  { rtts := evictIfFull s.rtts history ++ [rtt]
    total := (s.total + 1) % u64Mod
    lost := if rtt.isNone then (s.lost + 1) % u64Mod else s.lost
    last := rtt }

/-- Model of `ui.rs::UiState::avg`: fold over `rtts.iter().flatten()`
accumulating a running sum and count, then `(cnt > 0).then(|| sum / cnt)`. -/
def UiState.avg (s : UiState) : Option ℚ :=
  let p := (s.rtts.filterMap id).foldl (fun ac v => (ac.1 + v, ac.2 + 1)) ((0 : ℚ), (0 : Nat))
  if 0 < p.2 then some (p.1 / (p.2 : ℚ)) else none

/-- Model of `ui.rs::UiState::loss_pct`:
`if total == 0 { 0.0 } else { lost as f64 * 100.0 / total as f64 }`. -/
def UiState.loss_pct (s : UiState) : ℚ :=
  if s.total = 0 then 0 else (s.lost : ℚ) * 100 / (s.total : ℚ)

/-- Model of `ui.rs::UiState::y_max`: start from `10.0`, raise to any larger
value seen among the non-absent ring entries, then `(m * 1.20).ceil()`. -/
def UiState.y_max (s : UiState) : ℚ :=
  let m := (s.rtts.filterMap id).foldl (fun m v => if v > m then v else m) (10 : ℚ)
  ((⌈m * (1.2 : ℚ)⌉ : ℤ) : ℚ)

/-- Applying a whole sequence of samples to a fresh window, in order: the
dashboard loop calls `UiState::push` once per drained sample. -/
def applyAll (history : Nat) (samples : List (Option ℚ)) : UiState :=
  samples.foldl (fun s r => UiState.push s r history) (UiState.new history)

/-- Spec-side definition ("arithmetic mean of all non-absent values
currently in ring; undefined if zero such values exist"), written from the
spec's words to be compared with `UiState.avg`. -/
def meanSpec (vals : List ℚ) : Option ℚ :=
  if vals = [] then none else some (vals.sum / (vals.length : ℚ))

/-- Spec-side definition (`ceil(1.20 × max(10, max(ring non-absent values)))`,
the inner max defaulting to the floor value 10 on an empty window), written
from the spec's words to be compared with `UiState.y_max`. -/
def yAxisMaxSpec (s : UiState) : ℚ :=
  ((⌈(1.2 : ℚ) * max 10 (((s.rtts.filterMap id).max?).getD 10)⌉ : ℤ) : ℚ)

/-- Model of the timeout conversion in `pinger.rs::Pinger::ping_once_linux`:
`self.cfg.timeout.as_secs().max(1)` where `timeout` was built with
`Duration::from_millis`; `Duration::as_secs` truncates. -/
def timeout_secs (timeout_ms : Nat) : Nat :=
  Nat.max (timeout_ms / 1000) 1

/-- Spec-side definition ("rounded up to whole seconds"), written from the
spec's words to be compared with `timeout_secs`. -/
def ceilSecs (timeout_ms : Nat) : Nat :=
  (timeout_ms + 999) / 1000

/-- Model of the digit-string accumulation used to read a decimal number. -/
def digitsVal (cs : List Char) : Nat :=
  cs.foldl (fun n c => n * 10 + (c.toNat - 48)) 0

/-- Model of `val.parse::<f64>()` restricted to the plain decimal forms the
`ping` utility emits (`12`, `12.3`, `12.`, `.5`); exponent, sign and
inf/nan forms of the Rust grammar are not modelled — no claim depends on
them, only on whether a parse succeeds. -/
def parseF64 (cs : List Char) : Option ℚ :=
  let intPart := cs.takeWhile Char.isDigit
  let rest := cs.dropWhile Char.isDigit
  match rest with
  | [] => if intPart = [] then none else some ((digitsVal intPart : ℚ))
  | '.' :: frac =>
      if frac.all Char.isDigit ∧ (intPart ≠ [] ∨ frac ≠ []) then
        some ((digitsVal intPart : ℚ) + (digitsVal frac : ℚ) / ((10 : ℚ) ^ frac.length))
      else none
  | _ => none

/-- Model of `line.find("time=")` followed by taking the rest of the line
after the first occurrence of the marker. -/
def afterMarker : List Char → Option (List Char)
| [] => none
| c :: rest =>
    if ('t' :: 'i' :: 'm' :: 'e' :: '=' :: []).isPrefixOf (c :: rest) then
      some ((c :: rest).drop 5)
    else afterMarker rest

/-- Model of the per-line closure in `ping_once_linux`: after `time=`, take
up to the next space and parse the value as a float. -/
def parseTimeLine (line : String) : Option ℚ :=
  match afterMarker line.toList with
  | none => none
  | some rest => parseF64 (rest.takeWhile (fun c => c != ' '))

/-- Model of `stdout.lines().find_map(...)`: the first line yielding a
parsed RTT wins; lines whose `time=` value fails to parse are skipped. -/
def findRtt (stdout_lines : List String) : Option ℚ :=
  stdout_lines.findSome? parseTimeLine

/-- Model of `pinger.rs::PingSample`. -/
structure PingSample where
  seq : Nat
  rtt_ms : Option ℚ
deriving DecidableEq

/-- One possible outcome of running the `ping` subprocess: the spawn itself
fails (`Command::output` returns `Err`), the process exits non-zero, or it
exits successfully with some stdout lines. -/
inductive ProbeOutcome
| spawnErr
| exitNonZero
| output (lines : List String)
deriving DecidableEq

/-- Model of `pinger.rs::Pinger::ping_once_linux` as a function of the
current `seq` and the subprocess outcome. Returns the new `seq` and
`none` when the Rust function returns `Err` (spawn failure — note the
`?` fires before `self.seq += 1`), or `some rtt_ms` for the `Ok` sample.
On non-zero exit the sample is a loss; otherwise the stdout is parsed. -/
def ping_once_linux (seq : Nat) (o : ProbeOutcome) : Nat × Option (Option ℚ) :=
  match o with
  | .spawnErr => (seq, none)
  | .exitNonZero => ((seq + 1) % u64Mod, some none)
  | .output lines => ((seq + 1) % u64Mod, some (findRtt lines))

/-- Model of one cycle of `pinger.rs::Pinger::run`:
`self.ping_once().await.unwrap_or_else(|_| { self.seq += 1; PingSample { seq, rtt_ms: None } })`.
The error-substitution closure performs the cycle's single increment when
`ping_once` failed before incrementing. -/
def runCycle (seq : Nat) (o : ProbeOutcome) : Nat × PingSample :=
  match ping_once_linux seq o with
  | (s, some rtt) => (s, { seq := s, rtt_ms := rtt })
  | (s, none) => ((s + 1) % u64Mod, { seq := (s + 1) % u64Mod, rtt_ms := none })

/-- Model of the sending loop of `pinger.rs::Pinger::run`: one cycle per
probe outcome; `opn` is the number of sends the channel still accepts
before the receiver is gone — when it reaches zero, `tx.send` errs and the
loop breaks (that sample is not delivered). The returned list is the
sequence of samples actually sent on the channel. -/
def pingerRun : Nat → Nat → List ProbeOutcome → List PingSample
| _, _, [] => []
| _, 0, _ :: _ => []
| seq, opn + 1, o :: rest =>
    (runCycle seq o).2 :: pingerRun (runCycle seq o).1 opn rest

/-- A probe outcome the spec calls a probe error: spawn failure, non-zero
exit, or success whose output contains no parsable `time=` marker. -/
def probeError : ProbeOutcome → Bool
| .spawnErr => true
| .exitNonZero => true
| .output lines => findRtt lines == none

/-- Model of the key codes `ui.rs::run_tui` distinguishes. -/
inductive KeyCode
| char (c : Char)
| esc
| other
deriving DecidableEq

/-- A key event: code plus whether the CONTROL modifier is held. -/
structure KeyEvt where
  code : KeyCode
  ctrl : Bool
deriving DecidableEq

/-- Model of the quit-key test in `ui.rs::run_tui`:
`q`, `Esc`, or `Ctrl-C`. -/
def isQuitKey (k : KeyEvt) : Bool :=
  k.code == KeyCode.char 'q' || k.code == KeyCode.esc
    || (k.code == KeyCode.char 'c' && k.ctrl)

/-- One iteration of the inner `while event::poll(..)? { .. }` loop:
`event::poll` may fail, `event::read` may fail, or a key / non-key event
is read. The end of the list models `event::poll` returning `false`. -/
inductive PollEvent
| pollErr
| readErr
| key (k : KeyEvt)
| nonKey
deriving DecidableEq

/-- How the inner polling loop of one tick ends. -/
inductive PollOutcome
| perr
| rerr
| quit
| done
deriving DecidableEq

/-- Model of the inner `while event::poll(..)?` loop of `ui.rs::run_tui`:
stops at the first poll/read error or quit key; other events are ignored. -/
def processPolls : List PollEvent → PollOutcome
| [] => .done
| PollEvent.pollErr :: _ => .perr
| PollEvent.readErr :: _ => .rerr
| PollEvent.key k :: rest => if isQuitKey k then .quit else processPolls rest
| PollEvent.nonKey :: rest => processPolls rest

/-- The environment's behaviour during one tick of the dashboard loop:
the poll events seen, the samples drained from the channel by
`rx.try_recv()`, and whether `terminal.draw` succeeds. -/
structure TickInput where
  polls : List PollEvent
  drained : List (Option ℚ)
  drawOk : Bool

/-- How `run_tui`'s loop exited. -/
inductive ExitKind
| quitKey
| errPoll
| errRead
| errDraw
deriving DecidableEq

/-- Model of the loop of `ui.rs::run_tui` (lines 94–179) together with the
terminal-restoration epilogue (lines 181–183). The first component records
whether the epilogue (`disable_raw_mode`, `LeaveAlternateScreen`,
`DisableMouseCapture`, `show_cursor`) is reached: the `?` operator on
`event::poll`, `event::read` and `terminal.draw` returns from `run_tui`
from inside the loop, so those paths never reach it, while the quit key
does `break 'outer Ok(())`, which falls through to the epilogue.
An exhausted input list models a still-running loop (`none` exit). -/
def runTuiModel (history : Nat) (st : UiState) : List TickInput → Bool × Option ExitKind × UiState
| [] => (false, none, st)
| t :: rest =>
    match processPolls t.polls with
    | .perr => (false, some ExitKind.errPoll, st)
    | .rerr => (false, some ExitKind.errRead, st)
    | .quit => (true, some ExitKind.quitKey, st)
    | .done =>
        let st2 := t.drained.foldl (fun a r => UiState.push a r history) st
        if t.drawOk then runTuiModel history st2 rest
        else (false, some ExitKind.errDraw, st2)

/-! ## Ring-buffer lemmas for `UiState.push` -/

theorem push_rtts_length_le (C : Nat) (hC : 1 ≤ C) (s : UiState) (r : Option ℚ)
    (h : s.rtts.length ≤ C) : (UiState.push s r C).rtts.length ≤ C := by
  by_cases hfull : s.rtts.length = C
  · simp [UiState.push, evictIfFull, hfull]
    omega
  · have hlt : s.rtts.length < C := lt_of_le_of_ne h hfull
    simp [UiState.push, evictIfFull, hfull]
    omega

theorem foldl_push_rtts (C : Nat) (hC : 1 ≤ C) :
    ∀ (samples : List (Option ℚ)) (s : UiState), s.rtts.length ≤ C →
      (samples.foldl (fun a r => UiState.push a r C) s).rtts
        = (s.rtts ++ samples).drop (s.rtts.length + samples.length - C)
| [], s, h => by
    simp only [List.foldl_nil, List.append_nil, List.length_nil, Nat.add_zero]
    rw [Nat.sub_eq_zero_of_le h, List.drop_zero]
| x :: xs, s, h => by
    rw [List.foldl_cons,
      foldl_push_rtts C hC xs (UiState.push s x C) (push_rtts_length_le C hC s x h)]
    by_cases hfull : s.rtts.length = C
    · have hpos : 1 ≤ s.rtts.length := by omega
      have hr : (UiState.push s x C).rtts = s.rtts.drop 1 ++ [x] := by
        simp [UiState.push, evictIfFull, hfull]
      rw [hr]
      have hcount : (s.rtts.drop 1 ++ [x]).length + xs.length - C = xs.length := by
        simp
        omega
      rw [hcount, List.append_assoc, List.singleton_append,
        ← List.drop_append_of_le_length hpos, List.drop_drop]
      congr 1
      simp
      omega
    · have hr : (UiState.push s x C).rtts = s.rtts ++ [x] := by
        simp [UiState.push, evictIfFull, hfull]
      rw [hr, List.append_assoc, List.singleton_append]
      congr 1
      simp
      omega

theorem applyAll_rtts (C : Nat) (hC : 1 ≤ C) (samples : List (Option ℚ)) :
    (applyAll C samples).rtts = samples.drop (samples.length - C) := by
  have h := foldl_push_rtts C hC samples (UiState.new C) (by simp [UiState.new])
  simpa [applyAll, UiState.new] using h

theorem applyAll_rtts_length_le (C : Nat) (hC : 1 ≤ C) (samples : List (Option ℚ)) :
    (applyAll C samples).rtts.length ≤ C := by
  rw [applyAll_rtts C hC samples, List.length_drop]
  omega

theorem foldl_push_zero_rtts :
    ∀ (samples : List (Option ℚ)) (s : UiState), 1 ≤ s.rtts.length →
      (samples.foldl (fun a r => UiState.push a r 0) s).rtts = s.rtts ++ samples
| [], s, _ => by simp
| x :: xs, s, h => by
    have hne : s.rtts.length ≠ 0 := by omega
    have hr : (UiState.push s x 0).rtts = s.rtts ++ [x] := by
      simp [UiState.push, evictIfFull, hne]
    rw [List.foldl_cons,
      foldl_push_zero_rtts xs (UiState.push s x 0) (by rw [hr]; simp)]
    rw [hr, List.append_assoc, List.singleton_append]

theorem applyAll_zero_rtts (samples : List (Option ℚ)) :
    (applyAll 0 samples).rtts = samples := by
  cases samples with
  | nil => rfl
  | cons x xs =>
      have h1 : (UiState.push (UiState.new 0) x 0).rtts = [x] := by
        simp [UiState.push, evictIfFull, UiState.new]
      show (List.foldl (fun a r => UiState.push a r 0)
        (UiState.push (UiState.new 0) x 0) xs).rtts = x :: xs
      rw [foldl_push_zero_rtts xs _ (by rw [h1]; simp), h1, List.singleton_append]

/-! ## Counter lemmas for `UiState.push` -/

theorem foldl_push_total (C : Nat) :
    ∀ (samples : List (Option ℚ)) (s : UiState), s.total + samples.length < u64Mod →
      (samples.foldl (fun a r => UiState.push a r C) s).total = s.total + samples.length
| [], s, _ => by simp
| x :: xs, s, h => by
    have hlen : s.total + (xs.length + 1) < u64Mod := by simpa using h
    have h1 : (UiState.push s x C).total = s.total + 1 := by
      simp [UiState.push]
      exact Nat.mod_eq_of_lt (by omega)
    rw [List.foldl_cons, foldl_push_total C xs _ (by rw [h1]; omega)]
    rw [h1, List.length_cons]
    omega

theorem foldl_push_lost (C : Nat) :
    ∀ (samples : List (Option ℚ)) (s : UiState),
      s.lost + samples.countP (fun r => r.isNone) < u64Mod →
      (samples.foldl (fun a r => UiState.push a r C) s).lost
        = s.lost + samples.countP (fun r => r.isNone)
| [], s, _ => by simp
| x :: xs, s, h => by
    cases x with
    | none =>
        have hcount : (none :: xs).countP (fun r : Option ℚ => r.isNone)
            = xs.countP (fun r => r.isNone) + 1 := by
          simp [List.countP_cons]
        have hlt : s.lost + (xs.countP (fun r : Option ℚ => r.isNone) + 1) < u64Mod := by
          rw [hcount] at h
          omega
        have h1 : (UiState.push s none C).lost = s.lost + 1 := by
          simp [UiState.push]
          exact Nat.mod_eq_of_lt (by omega)
        rw [List.foldl_cons, foldl_push_lost C xs _ (by rw [h1]; omega)]
        rw [h1, hcount]
        omega
    | some v =>
        have hcount : (some v :: xs).countP (fun r : Option ℚ => r.isNone)
            = xs.countP (fun r => r.isNone) := by
          simp [List.countP_cons]
        have h1 : (UiState.push s (some v) C).lost = s.lost := by
          simp [UiState.push]
        have hlt : s.lost + xs.countP (fun r : Option ℚ => r.isNone) < u64Mod := by
          rw [hcount] at h
          omega
        rw [List.foldl_cons, foldl_push_lost C xs _ (by rw [h1]; omega)]
        rw [h1, hcount]

theorem foldl_push_last (C : Nat) :
    ∀ (samples : List (Option ℚ)) (s : UiState),
      (samples.foldl (fun a r => UiState.push a r C) s).last = (samples.getLast?).getD s.last
| [], s => by simp
| x :: xs, s => by
    rw [List.foldl_cons, foldl_push_last C xs _]
    have h1 : (UiState.push s x C).last = x := rfl
    rw [h1]
    cases xs with
    | nil => simp
    | cons y ys =>
        rw [List.getLast?_cons_cons]
        cases hys : (y :: ys).getLast? with
        | none => exact absurd (List.getLast?_eq_none_iff.mp hys) (by simp)
        | some a => simp

theorem applyAll_total (C : Nat) (l : List (Option ℚ)) (h : l.length < u64Mod) :
    (applyAll C l).total = l.length := by
  have h2 := foldl_push_total C l (UiState.new C) (by simpa [UiState.new] using h)
  simpa [applyAll, UiState.new] using h2

theorem applyAll_lost (C : Nat) (l : List (Option ℚ)) (h : l.length < u64Mod) :
    (applyAll C l).lost = l.countP (fun r => r.isNone) := by
  have hc : (0 : Nat) + l.countP (fun r : Option ℚ => r.isNone) < u64Mod := by
    have := List.countP_le_length (fun r : Option ℚ => r.isNone) (l := l)
    omega
  have h2 := foldl_push_lost C l (UiState.new C) (by simpa [UiState.new] using hc)
  simpa [applyAll, UiState.new] using h2

theorem applyAll_last (C : Nat) (l : List (Option ℚ)) :
    (applyAll C l).last = (l.getLast?).getD none := by
  have h2 := foldl_push_last C l (UiState.new C)
  simpa [applyAll, UiState.new] using h2

/-! ## Statistics lemmas -/

theorem foldl_sum_cnt :
    ∀ (l : List ℚ) (a : ℚ) (n : Nat),
      l.foldl (fun ac v => (ac.1 + v, ac.2 + 1)) (a, n) = (a + l.sum, n + l.length)
| [], a, n => by simp
| x :: xs, a, n => by
    rw [List.foldl_cons]
    rw [foldl_sum_cnt xs (a + x) (n + 1)]
    simp [List.sum_cons]
    constructor
    · ring
    · omega

theorem ite_max_eq (m v : ℚ) : (if v > m then v else m) = max m v := by
  rcases le_or_lt v m with h | h
  · rw [if_neg (not_lt.mpr h), max_eq_left h]
  · rw [if_pos h, max_eq_right h.le]

theorem foldl_max_shift :
    ∀ (l : List ℚ) (a x : ℚ), l.foldl max (max a x) = max a (l.foldl max x)
| [], a, x => by simp
| y :: ys, a, x => by
    rw [List.foldl_cons, List.foldl_cons, max_assoc]
    exact foldl_max_shift ys a (max x y)

theorem foldl_max_elim :
    ∀ (xs : List ℚ) (x : ℚ), xs.foldl max x = (xs.max?.elim x (max x))
| [], x => by simp [List.max?]
| y :: ys, x => by
    rw [List.foldl_cons, foldl_max_elim ys (max x y), List.max?_cons]
    cases hys : ys.max? with
    | none => simp
    | some m => simp [max_assoc]

theorem foldl_guard_max (l : List ℚ) :
    l.foldl (fun m v => if v > m then v else m) 10 = max 10 ((l.max?).getD 10) := by
  have hfun : (fun (m v : ℚ) => if v > m then v else m) = max := by
    funext m v
    exact ite_max_eq m v
  rw [hfun]
  cases l with
  | nil => simp [List.max?]
  | cons x xs =>
      rw [List.foldl_cons, foldl_max_shift xs 10 x, List.max?_cons, Option.getD_some]
      rw [foldl_max_elim xs x]

/-! ## Sampling-loop lemmas -/

theorem runCycle_seq_step (seq : Nat) (o : ProbeOutcome) (h : seq + 1 < u64Mod) :
    (runCycle seq o).1 = seq + 1 ∧ ((runCycle seq o).2).seq = seq + 1 := by
  cases o <;> simp [runCycle, ping_once_linux, Nat.mod_eq_of_lt h]

theorem pingerRun_seqs :
    ∀ (outcomes : List ProbeOutcome) (opn seq : Nat), seq + outcomes.length < u64Mod →
      (pingerRun seq opn outcomes).map PingSample.seq
        = List.range' (seq + 1) (min opn outcomes.length)
| [], opn, seq, _ => by simp [pingerRun]
| _ :: _, 0, _, _ => by simp [pingerRun]
| o :: os, opn + 1, seq, h => by
    have hlen : seq + (os.length + 1) < u64Mod := by simpa using h
    have h1 : seq + 1 < u64Mod := by omega
    rw [pingerRun, List.map_cons]
    rw [(runCycle_seq_step seq o h1).2, (runCycle_seq_step seq o h1).1]
    rw [pingerRun_seqs os opn (seq + 1) (by omega)]
    rw [List.length_cons, Nat.succ_min_succ, List.range'_succ]

theorem pingerRun_length :
    ∀ (outcomes : List ProbeOutcome) (opn seq : Nat), outcomes.length ≤ opn →
      (pingerRun seq opn outcomes).length = outcomes.length
| [], _, _, _ => by simp [pingerRun]
| o :: os, 0, _, h => by simp at h
| o :: os, opn + 1, seq, h => by
    have hle : os.length ≤ opn := by simpa using h
    rw [pingerRun]
    simp [pingerRun_length os opn (runCycle seq o).1 hle]

/-! ## Claim theorems -/

/-- Claim C1 (code bug): the claim states that the terminal-restoration
cleanup runs on every exit path of the dashboard loop, but in the code the
`?` operator on `event::poll`, `event::read` and `terminal.draw` returns
from `run_tui` from inside the loop, skipping the restoration epilogue;
only the quit-key path (`break 'outer`) reaches it. This theorem evaluates
the loop model on the three mid-loop error paths (cleanup flag `false`)
and on the quit path (cleanup flag `true`). -/
theorem C1_restore_skipped_on_error_paths :
    runTuiModel 120 (UiState.new 120) [⟨[PollEvent.pollErr], [], true⟩]
      = (false, some ExitKind.errPoll, UiState.new 120)
  ∧ runTuiModel 120 (UiState.new 120) [⟨[PollEvent.readErr], [], true⟩]
      = (false, some ExitKind.errRead, UiState.new 120)
  ∧ runTuiModel 120 (UiState.new 120) [⟨[], [], false⟩]
      = (false, some ExitKind.errDraw, UiState.new 120)
  ∧ runTuiModel 120 (UiState.new 120) [⟨[PollEvent.key ⟨KeyCode.char 'q', false⟩], [], true⟩]
      = (true, some ExitKind.quitKey, UiState.new 120) := by
  decide

/-- Claim C2, counterexample: the claim says the backend deadline is the
timeout rounded UP to whole seconds (1500 ms ↦ 2 s), but the code
truncates with a floor of one second, so 1500 ms yields 1 s. -/
theorem C2_timeout_not_rounded_up :
    timeout_secs 1500 = 1 ∧ ceilSecs 1500 = 2 ∧ timeout_secs 1500 ≠ ceilSecs 1500 := by
  decide

/-- Claim C2, amended: the backend deadline is the timeout truncated
(rounded down) to whole seconds and clamped below to one second, i.e.
1 s for every timeout below 2000 ms and `timeout_ms / 1000` otherwise;
in particular 1500 ms yields a 1-second deadline. -/
theorem C2_timeout_truncated_clamped (timeout_ms : Nat) :
    timeout_secs timeout_ms = (if timeout_ms < 2000 then 1 else timeout_ms / 1000)
  ∧ 1 ≤ timeout_secs timeout_ms
  ∧ timeout_secs 1500 = 1 := by
  refine ⟨?_, ?_, by decide⟩
  · unfold timeout_secs
    by_cases h : timeout_ms < 2000 <;> simp [h] <;> omega
  · unfold timeout_secs
    exact Nat.le_max_right _ 1

/-- Claim C3: for every capacity `C ≥ 1` and sample sequence, the ring's
length never exceeds `C` at any point (including the transient state
inside an apply: the evicted ring plus the one appended element still
fits), an apply at length `C` evicts the oldest (front) entry first, and
the ring always equals the most recent `min N C` pushed values in arrival
order (`drop (N - C)` of the pushed sequence); for `N > C` its length is
exactly `C`. -/
theorem C3_ring_bounded_fifo (C : Nat) (hC : 1 ≤ C) (samples : List (Option ℚ)) :
    (∀ n : Nat, (applyAll C (samples.take n)).rtts.length ≤ C
      ∧ (evictIfFull (applyAll C (samples.take n)).rtts C).length + 1 ≤ C)
  ∧ (∀ (s : UiState) (r : Option ℚ), s.rtts.length = C →
      (UiState.push s r C).rtts = s.rtts.drop 1 ++ [r])
  ∧ (applyAll C samples).rtts = samples.drop (samples.length - C)
  ∧ (C < samples.length → (applyAll C samples).rtts.length = C) := by
  refine ⟨fun n => ?_, fun s r hfull => ?_, applyAll_rtts C hC samples, fun hlt => ?_⟩
  · have hle := applyAll_rtts_length_le C hC (samples.take n)
    refine ⟨hle, ?_⟩
    by_cases hf : (applyAll C (samples.take n)).rtts.length = C
    · simp [evictIfFull, hf]
      omega
    · simp [evictIfFull, hf]
      omega
  · simp [UiState.push, evictIfFull, hfull]
  · rw [applyAll_rtts C hC samples, List.length_drop]
    omega

theorem C3_ring_bounded_fifo_witness :
    (applyAll 2 [some 1, none, some 3]).rtts
      = ([some 1, none, some 3] : List (Option ℚ)).drop ([some 1, none, some 3].length - 2) :=
  (C3_ring_bounded_fifo 2 (by decide) [some 1, none, some 3]).2.2.1

/-- Claim C4: `avg` is the arithmetic mean of exactly the non-absent RTT
values currently in the ring (losses are skipped, not zero-counted;
evicted values are gone from `rtts` and cannot contribute), it is
undefined (`none`) iff the ring holds zero non-absent values, and on the
window `[10, None, 30]` it is `20`. -/
theorem C4_windowed_mean (s : UiState) :
    s.avg = meanSpec (s.rtts.filterMap id)
  ∧ (s.avg = none ↔ s.rtts.filterMap id = [])
  ∧ UiState.avg { rtts := [some 10, none, some 30], total := 3, lost := 1, last := some 30 }
      = some 20 := by
  have hmain : ∀ t : UiState, t.avg = meanSpec (t.rtts.filterMap id) := by
    intro t
    simp only [UiState.avg, meanSpec, foldl_sum_cnt]
    by_cases hv : t.rtts.filterMap id = []
    · simp [hv]
    · have hlen : 0 < (t.rtts.filterMap id).length := List.length_pos.mpr hv
      simp [hv, hlen]
  refine ⟨hmain s, ?_, ?_⟩
  · rw [hmain s]
    unfold meanSpec
    by_cases hv : s.rtts.filterMap id = [] <;> simp [hv]
  · simp [UiState.avg]
    norm_num

/-- Claim C5: `loss_pct` is `100 × lost / total` over the full-run
counters, except it is `0` when `total = 0` (no division by zero); with
1 loss out of 4 it is `25`. -/
theorem C5_loss_percent (s : UiState) :
    s.loss_pct = (if s.total = 0 then 0 else 100 * (s.lost : ℚ) / (s.total : ℚ))
  ∧ UiState.loss_pct { rtts := [], total := 0, lost := 0, last := none } = 0
  ∧ UiState.loss_pct { rtts := [], total := 4, lost := 1, last := none } = 25 := by
  refine ⟨?_, by norm_num [UiState.loss_pct], by norm_num [UiState.loss_pct]⟩
  unfold UiState.loss_pct
  by_cases h : s.total = 0 <;> simp [h] <;> ring

/-- Claim C6: `y_max` equals `ceil(1.2 × max(10, max of the non-absent
ring values))`; an empty or all-lost window yields `12`, a maximum
visible value of `50` yields `60`. -/
theorem C6_y_axis_scale (s : UiState) :
    s.y_max = yAxisMaxSpec s
  ∧ UiState.y_max (UiState.new 120) = 12
  ∧ UiState.y_max { rtts := [none, none], total := 2, lost := 2, last := none } = 12
  ∧ UiState.y_max { rtts := [some 50], total := 1, lost := 0, last := some 50 } = 60 := by
  refine ⟨?_, by norm_num [UiState.y_max, UiState.new], by norm_num [UiState.y_max], ?_⟩
  · simp only [UiState.y_max, yAxisMaxSpec, foldl_guard_max]
    rw [mul_comm]
  · simp [UiState.y_max]
    norm_num

/-- Claim C7: the sequence numbers of the samples sent on the channel are
exactly `1, 2, 3, …` in order — `List.range' 1 k` for `k` sent samples —
for every mix of probe outcomes (spawn error, non-zero exit, parsable or
unparsable output): each cycle increments the counter exactly once, on
the success path inside `ping_once_linux` or otherwise in the
`unwrap_or_else` substitution closure. -/
theorem C7_sequence_numbers_contiguous (outcomes : List ProbeOutcome) (opn : Nat)
    (h : outcomes.length < u64Mod) :
    (pingerRun 0 opn outcomes).map PingSample.seq
      = List.range' 1 (min opn outcomes.length) := by
  simpa using pingerRun_seqs outcomes opn 0 (by omega)

theorem C7_sequence_numbers_contiguous_witness :
    (pingerRun 0 5 [ProbeOutcome.spawnErr, ProbeOutcome.exitNonZero,
        ProbeOutcome.output ["64 bytes from 1.1.1.1: time=7 ms"]]).map PingSample.seq
      = List.range' 1 (min 5 3) :=
  C7_sequence_numbers_contiguous
    [ProbeOutcome.spawnErr, ProbeOutcome.exitNonZero,
      ProbeOutcome.output ["64 bytes from 1.1.1.1: time=7 ms"]] 5 (by decide)

/-- Claim C8: every probe error (spawn failure, non-zero exit status, or
output with no parsable `time=` marker) yields a sample with absent
`rtt_ms`, and the sampling loop keeps going: with an open channel it
emits exactly one sample per cycle, never aborting on a probe error
(in the code, `Pinger::run` only ends when the channel closes, always
returning `Ok`). -/
theorem C8_probe_errors_are_losses (outcomes : List ProbeOutcome) (opn : Nat)
    (hopen : outcomes.length ≤ opn) :
    (pingerRun 0 opn outcomes).length = outcomes.length
  ∧ (∀ (seq : Nat) (o : ProbeOutcome), probeError o = true →
      ((runCycle seq o).2).rtt_ms = none) := by
  refine ⟨pingerRun_length outcomes opn 0 hopen, fun seq o hpe => ?_⟩
  cases o with
  | spawnErr => simp [runCycle, ping_once_linux]
  | exitNonZero => simp [runCycle, ping_once_linux]
  | output lines =>
      simp only [probeError, beq_iff_eq] at hpe
      simp [runCycle, ping_once_linux, hpe]

theorem C8_probe_errors_are_losses_witness :
    (pingerRun 0 3 [ProbeOutcome.spawnErr, ProbeOutcome.output ["PING example"]]).length = 2
  ∧ ((runCycle 0 (ProbeOutcome.output ["PING example"])).2).rtt_ms = none := by
  refine ⟨?_, ?_⟩
  · exact (C8_probe_errors_are_losses
      [ProbeOutcome.spawnErr, ProbeOutcome.output ["PING example"]] 3 (by decide)).1
  · exact (C8_probe_errors_are_losses [] 0 (by decide)).2 0
      (ProbeOutcome.output ["PING example"]) (by decide)

/-- Claim C9: after `N` applies on a fresh window (with `N` below the u64
wrap bound), `total = N`, `lost` counts exactly the absent samples (so
`lost ≤ total`), `last` is the rtt of the most recent sample (absent for
a fresh window), and both counters are monotone along prefixes — in
particular ring eviction never changes them, since they do not depend on
the capacity `C` at all. -/
theorem C9_full_run_counters (C : Nat) (samples : List (Option ℚ))
    (hN : samples.length < u64Mod) :
    (applyAll C samples).total = samples.length
  ∧ (applyAll C samples).lost = samples.countP (fun r => r.isNone)
  ∧ (applyAll C samples).lost ≤ (applyAll C samples).total
  ∧ (applyAll C samples).last = (samples.getLast?).getD none
  ∧ (∀ n m : Nat, n ≤ m →
      (applyAll C (samples.take n)).total ≤ (applyAll C (samples.take m)).total
      ∧ (applyAll C (samples.take n)).lost ≤ (applyAll C (samples.take m)).lost) := by
  have hml : ∀ n : Nat, (samples.take n).length < u64Mod := by
    intro n
    have h1 : (samples.take n).length ≤ samples.length := by
      rw [List.length_take]
      omega
    omega
  refine ⟨applyAll_total C samples hN, applyAll_lost C samples hN, ?_,
    applyAll_last C samples, ?_⟩
  · rw [applyAll_total C samples hN, applyAll_lost C samples hN]
    exact List.countP_le_length _
  · intro n m hnm
    constructor
    · rw [applyAll_total C _ (hml n), applyAll_total C _ (hml m),
        List.length_take, List.length_take]
      omega
    · rw [applyAll_lost C _ (hml n), applyAll_lost C _ (hml m)]
      have hpre : samples.take n = (samples.take m).take n := by
        rw [List.take_take]
        congr 1
        omega
      rw [hpre]
      exact List.Sublist.countP_le _ (List.take_sublist n (samples.take m))

theorem C9_full_run_counters_witness :
    (applyAll 2 [some 1, none]).total = 2
  ∧ (applyAll 2 [some 1, none]).lost
      = ([some 1, none] : List (Option ℚ)).countP (fun r => r.isNone)
  ∧ (applyAll 2 [some 1, none]).last
      = (([some 1, none] : List (Option ℚ)).getLast?).getD none
  ∧ (applyAll 2 (([some 1, none] : List (Option ℚ)).take 1)).lost
      ≤ (applyAll 2 (([some 1, none] : List (Option ℚ)).take 2)).lost := by
  refine ⟨(C9_full_run_counters 2 [some 1, none] (by decide)).1,
    (C9_full_run_counters 2 [some 1, none] (by decide)).2.1,
    (C9_full_run_counters 2 [some 1, none] (by decide)).2.2.2.1,
    ((C9_full_run_counters 2 [some 1, none] (by decide)).2.2.2.2 1 2 (by decide)).2⟩

/-- Claim C10 (implicit): `push` evicts exactly when the ring's length
equals the capacity argument at the moment of the call; with capacity 0
the first call pops from an empty deque (a no-op) and afterwards the
length never equals 0 again, so the ring simply accumulates every pushed
value and grows by one per push without bound; the `length ≤ capacity`
bound holds for all push sequences under the hypothesis `capacity ≥ 1`. -/
theorem C10_capacity_zero_unbounded :
    (∀ (s : UiState) (r : Option ℚ) (C : Nat), s.rtts.length ≠ C →
        (UiState.push s r C).rtts = s.rtts ++ [r])
  ∧ (∀ (s : UiState) (r : Option ℚ) (C : Nat), s.rtts.length = C →
        (UiState.push s r C).rtts = s.rtts.drop 1 ++ [r])
  ∧ (∀ samples : List (Option ℚ), (applyAll 0 samples).rtts = samples)
  ∧ (∀ samples : List (Option ℚ), (applyAll 0 samples).rtts.length = samples.length)
  ∧ (∀ C : Nat, 1 ≤ C → ∀ samples : List (Option ℚ),
      (applyAll C samples).rtts.length ≤ C) := by
  refine ⟨fun s r C hne => ?_, fun s r C hfull => ?_, applyAll_zero_rtts,
    fun samples => ?_, fun C hC samples => applyAll_rtts_length_le C hC samples⟩
  · simp [UiState.push, evictIfFull, hne]
  · simp [UiState.push, evictIfFull, hfull]
  · rw [applyAll_zero_rtts samples]

theorem C10_capacity_zero_unbounded_witness :
    (UiState.push { rtts := [some 1], total := 1, lost := 0, last := some 1 } (some 2) 5).rtts
      = [some 1] ++ [some 2]
  ∧ (UiState.push { rtts := [some 1], total := 1, lost := 0, last := some 1 } (some 2) 1).rtts
      = ([some 1] : List (Option ℚ)).drop 1 ++ [some 2]
  ∧ (applyAll 0 [none, some 3]).rtts.length = ([none, some 3] : List (Option ℚ)).length
  ∧ (applyAll 1 [none, some 3]).rtts.length ≤ 1 := by
  refine ⟨C10_capacity_zero_unbounded.1 _ (some 2) 5 (by decide),
    C10_capacity_zero_unbounded.2.1 _ (some 2) 1 (by decide),
    C10_capacity_zero_unbounded.2.2.2.1 [none, some 3],
    C10_capacity_zero_unbounded.2.2.2.2 1 (by decide) [none, some 3]⟩
